import Mathlib

/-!
Verification of the CNT binary-format decoder of `mne/io/cnt/_utils.py`:
the event-table-position resolver (`_compute_robust_event_table_position`
with its inner helpers `get_most_possible_sol` and
`possible_event_table_pos`), the TEEG descriptor reader (`_read_teeg`) and
the event-record decoder factory (`_get_event_parser` in the source; named
`_get_event_decoder` here).

The byte source (the Python file object `fid`) is modelled as a
byte-addressable handle carrying a total size, a byte function and a read
cursor.  `seek`/`read` are modelled exactly: `read n` returns the
`min n (size - pos)` available bytes and advances the cursor by that much;
a short read makes the subsequent `np.frombuffer`/`Struct.unpack` call
fail, which is modelled as an error result.  Machine integers are `Nat`
and `Int` with explicit little-endian byte decoding and explicit
reduction at `2 ^ 32 = 4294967296` where the source wraps.
-/

/-- A seekable byte source: total byte length, byte content by absolute
offset, and current cursor position.  Models the Python file object. -/
structure FileHandle where
  size : Nat
  byteAt : Nat → Nat
  pos : Nat

/-- `fid.seek(p)`: set the cursor to `p` (Python allows seeking past EOF). -/
def fseek (f : FileHandle) (p : Nat) : FileHandle := { f with pos := p }

/-- `fid.read(n)`: return the at most `n` bytes available from the cursor
and advance the cursor by the number of bytes actually read. -/
def fread (f : FileHandle) (n : Nat) : List Nat × FileHandle :=
  let avail := min n (f.size - f.pos)
  ((List.range avail).map (fun i => f.byteAt (f.pos + i)), { f with pos := f.pos + avail })

/-- Little-endian accumulation of a byte list into an unsigned integer
(the `<` struct / `np.frombuffer` little-endian convention). -/
def leNat : List Nat → Nat
  | [] => 0
  | b :: bs => b + 256 * leNat bs

/-- Reinterpret an unsigned 32-bit value as signed (`<i4` / struct `l`). -/
def toI32 (v : Nat) : Int := if v < 2147483648 then (v : Int) else (v : Int) - 4294967296

/-- Reinterpret an unsigned 16-bit value as signed (struct `h`). -/
def toI16 (v : Nat) : Int := if v < 32768 then (v : Int) else (v : Int) - 65536

/-- Decode a little-endian signed 32-bit integer from its byte list. -/
def decodeI32 (bs : List Nat) : Int := toI32 (leNat bs)

/-- The error outcomes of the decoder, kept distinct:
`shortRead` models the `ValueError` raised by `np.frombuffer`/`unpack` on
a truncated read, `configError` the `Exception` raised for an invalid
`data_format` argument, `indexError` the `IndexError` raised by
`sorted(sol_table, ...)[0]` on an empty solution table, and
`unknownEventType` the `ValueError('unknown CNT even type ...')`. -/
inductive CntError where
  | shortRead
  | configError
  | indexError
  | unknownEventType
  deriving DecidableEq

/-- The analytic event-table offset
`900 + 75 * n_channels + n_bytes * n_channels * n_samples`
(`calc_event_table_pos` in `get_most_possible_sol`). -/
def calcEventTablePos (n_channels : Nat) (n_samples : Int) (n_bytes : Nat) : Int :=
  900 + 75 * (n_channels : Int) + (n_bytes : Int) * (n_channels : Int) * n_samples

/-- One row of `sol_table`:
`(event_table_pos, n_bytes, distance)` with
`distance = abs(calc_event_table_pos - event_table_pos)`. -/
def solEntry (n_channels : Nat) (n_samples : Int) (event_table_pos n_bytes : Nat) :
    Nat × Nat × Nat :=
  (event_table_pos, n_bytes,
    (calcEventTablePos n_channels n_samples n_bytes - (event_table_pos : Int)).natAbs)

/-- Fuel-indexed unfolding of the `while event_table_pos <= file_size`
loop of `possible_event_table_pos`; each iteration yields the current
candidate and adds `np.iinfo(np.uint32).max + 1 = 4294967296`.  The fuel
only bounds the iteration count so that the recursion is structural; it
is taken large enough to never be exhausted (see
`possible_event_table_pos_eq`). -/
def petpAux : Nat → Nat → Nat → List Nat
  | 0, _, _ => []
  | fuel + 1, event_table_pos, file_size =>
    if event_table_pos ≤ file_size then
      event_table_pos :: petpAux fuel (event_table_pos + 4294967296) file_size
    else []

/-- `possible_event_table_pos`: all candidate true offsets
`declared, declared + 2^32, declared + 2*2^32, ...` not exceeding the file
size.  The two `fid` reads of the source (the stored `u32` at offset 886
and the `SEEK_END` file size) are hoisted into the two arguments; the
caller `_compute_robust_event_table_position` performs them. -/
def possible_event_table_pos (event_table_pos file_size : Nat) : List Nat :=
  petpAux (file_size + 1 - event_table_pos) event_table_pos file_size

/-- The rows of `sol_table` in the order the two nested `for` loops of
`get_most_possible_sol` enumerate them: outer loop over candidate
positions (increasing wraparound count), inner loop over
`possible_n_bytes`. -/
def solTableFor (cands possible_n_bytes : List Nat) (n_channels : Nat) (n_samples : Int) :
    List (Nat × Nat × Nat) :=
  match cands with
  | [] => []
  | p :: ps =>
    possible_n_bytes.map (solEntry n_channels n_samples p) ++
      solTableFor ps possible_n_bytes n_channels n_samples

/-- `sorted(sol_table, key=lambda x: x[2])[0]` — Python's sort is stable,
so this is the first row (in enumeration order) with minimal distance;
`none` models the `IndexError` on an empty table. -/
def pickFirstMin : List (Nat × Nat × Nat) → Option (Nat × Nat × Nat)
  | [] => none
  | e :: es =>
    match pickFirstMin es with
    | none => some e
    | some r => if r.2.2 < e.2.2 then some r else some e

/-- The loop body of `get_most_possible_sol` over the flattened row
sequence: a row with `distance == 0` is returned immediately, otherwise
rows accumulate into `sol_table` and the final result is the stable-sort
minimum. -/
def searchSol (acc : List (Nat × Nat × Nat)) : List (Nat × Nat × Nat) → Option (Nat × Nat × Nat)
  | [] => pickFirstMin acc
  | e :: es => if e.2.2 = 0 then some e else searchSol (acc ++ [e]) es

/-- `get_most_possible_sol(fid, possible_n_bytes, n_samples, n_channels)`;
the `fid`-derived values (stored table position, file size) are passed as
the first two arguments. -/
def get_most_possible_sol (declared_table_pos file_size : Nat) (possible_n_bytes : List Nat)
    (n_samples : Int) (n_channels : Nat) : Option (Nat × Nat × Nat) :=
  searchSol []
    (solTableFor (possible_event_table_pos declared_table_pos file_size)
      possible_n_bytes n_channels n_samples)

/-- The `possible_n_bytes` candidate-width table selected from the
`data_format` argument; `none` models the
`Exception("Correct data format required: 'auto','int16' or 'int32'.")`
branch. -/
def possibleNBytesFor (data_format : String) : Option (List Nat) :=
  if data_format = "auto" then some [2, 4]
  else if data_format = "int16" then some [2]
  else if data_format = "int32" then some [4]
  else none

/-- The header field `n_samples`: little-endian `<i4` at offset
`SETUP_NSAMPLES_OFFSET = 864`; `none` on a short read. -/
def headerNSamples (f : FileHandle) : Option Int :=
  let bs := (fread (fseek f 864) 4).1
  if bs.length = 4 then some (decodeI32 bs) else none

/-- The header field `n_channels`: little-endian `<u2` at offset
`SETUP_NCHANNELS_OFFSET = 370`; `none` on a short read. -/
def headerNChannels (f : FileHandle) : Option Nat :=
  let bs := (fread (fseek f 370) 2).1
  if bs.length = 2 then some (leNat bs) else none

/-- The header field `event_table_pos` as literally stored: little-endian
`<u4` at offset `SETUP_EVENTTABLEPOS_OFFSET = 886`; `none` on a short
read. -/
def headerDeclaredPos (f : FileHandle) : Option Nat :=
  let bs := (fread (fseek f 886) 4).1
  if bs.length = 4 then some (leNat bs) else none

/-- `_compute_robust_event_table_position(fid, data_format)`.

Follows the source step by step: save the cursor, read `n_samples` (i32
at 864) then `n_channels` (u16 at 370), translate `data_format` into the
candidate width list (raising on anything other than `auto` / `int16` /
`int32`), run `get_most_possible_sol` (whose candidate generator reads
the stored u32 at 886 and then seeks to the end to learn the file size),
and restore the cursor before returning.  Successive `seek`/`read` calls
only move the cursor and never change the bytes or the size, so each
fixed-offset field read is expressed directly against `fid`; the handle
carried by each outcome reproduces the source's cursor state at that
point (the source raises without restoring the cursor on the error
paths).  The `Bool` in the result records whether the `distance != 0`
warning was emitted. -/
def _compute_robust_event_table_position (fid : FileHandle) (data_format : String) :
    Except (CntError × FileHandle) ((Nat × Int × Nat × Nat) × Bool × FileHandle) :=
  let fid_origin := fid.pos
  match headerNSamples fid with
  | none => .error (.shortRead, (fread (fseek fid 864) 4).2)
  | some n_samples =>
    match headerNChannels fid with
    | none => .error (.shortRead, (fread (fseek fid 370) 2).2)
    | some n_channels =>
      match possibleNBytesFor data_format with
      | none => .error (.configError, (fread (fseek fid 370) 2).2)
      | some possible_n_bytes =>
        match headerDeclaredPos fid with
        | none => .error (.shortRead, (fread (fseek fid 886) 4).2)
        | some declared =>
          match get_most_possible_sol declared fid.size possible_n_bytes
              n_samples n_channels with
          | some (event_table_pos, n_bytes, distance) =>
            .ok ((n_channels, n_samples, event_table_pos, n_bytes), distance != 0,
              fseek fid fid_origin)
          | none => .error (.indexError, fseek fid fid.size)

/-- The TEEG descriptor `(event_type: u8, total_length: i32, offset: i32)`
(struct pattern `<Bll`, 9 bytes). -/
structure Teeg where
  event_type : Nat
  total_length : Int
  offset : Int
  deriving DecidableEq

/-- `_read_teeg(f, teeg_offset)`: seek to `teeg_offset`, read and unpack
the 9-byte TEEG structure.  The source performs no cursor save/restore:
the handle is returned as the read leaves it. -/
def _read_teeg (f : FileHandle) (teeg_offset : Nat) :
    Except (CntError × FileHandle) (Teeg × FileHandle) :=
  let r := fread (fseek f teeg_offset) 9
  if r.1.length = 9 then
    .ok (⟨leNat (r.1.take 1), decodeI32 ((r.1.drop 1).take 4),
      decodeI32 ((r.1.drop 5).take 4)⟩, r.2)
  else .error (.shortRead, r.2)

/-- `CNTEventType1` (struct `<HBcl`, 8 bytes).  `KeyPad_Accept` is read
by struct code `c`, i.e. as the raw byte. -/
structure CNTEventType1 where
  StimType : Nat
  KeyBoard : Nat
  KeyPad_Accept : Nat
  Offset : Int
  deriving DecidableEq

/-- `CNTEventType2` (struct `<HBclhhfccc`, 19 bytes).  `Latency` is a
little-endian IEEE-754 binary32 field; it is kept here as its 32-bit
pattern (struct code `f`; Lean has no 32-bit float, and no claim depends
on the real value). -/
structure CNTEventType2 where
  StimType : Nat
  KeyBoard : Nat
  KeyPad_Accept : Nat
  Offset : Int
  «Type» : Int
  Code : Int
  Latency : Nat
  EpochEvent : Nat
  Accept2 : Nat
  Accuracy : Nat
  deriving DecidableEq

/-- `CNTEventType3`: byte-identical layout to type 2, kept as a distinct
record as in the source. -/
structure CNTEventType3 where
  StimType : Nat
  KeyBoard : Nat
  KeyPad_Accept : Nat
  Offset : Int
  «Type» : Int
  Code : Int
  Latency : Nat
  EpochEvent : Nat
  Accept2 : Nat
  Accuracy : Nat
  deriving DecidableEq

/-- An event record, tagged by which event type produced it. -/
inductive CNTEvent where
  | ev1 : CNTEventType1 → CNTEvent
  | ev2 : CNTEventType2 → CNTEvent
  | ev3 : CNTEventType3 → CNTEvent
  deriving DecidableEq

/-- Unpack one 8-byte chunk with pattern `<HBcl`. -/
def decodeEvent1 (ch : List Nat) : CNTEventType1 :=
  { StimType := leNat (ch.take 2)
    KeyBoard := ch.getD 2 0
    KeyPad_Accept := ch.getD 3 0
    Offset := decodeI32 ((ch.drop 4).take 4) }

/-- Unpack one 19-byte chunk with pattern `<HBclhhfccc` into a type-2
record. -/
def decodeEvent2 (ch : List Nat) : CNTEventType2 :=
  { StimType := leNat (ch.take 2)
    KeyBoard := ch.getD 2 0
    KeyPad_Accept := ch.getD 3 0
    Offset := decodeI32 ((ch.drop 4).take 4)
    «Type» := toI16 (leNat ((ch.drop 8).take 2))
    Code := toI16 (leNat ((ch.drop 10).take 2))
    Latency := leNat ((ch.drop 12).take 4)
    EpochEvent := ch.getD 16 0
    Accept2 := ch.getD 17 0
    Accuracy := ch.getD 18 0 }

/-- Unpack one 19-byte chunk with pattern `<HBclhhfccc` into a type-3
record (same bytes as type 2). -/
def decodeEvent3 (ch : List Nat) : CNTEventType3 :=
  { StimType := leNat (ch.take 2)
    KeyBoard := ch.getD 2 0
    KeyPad_Accept := ch.getD 3 0
    Offset := decodeI32 ((ch.drop 4).take 4)
    «Type» := toI16 (leNat ((ch.drop 8).take 2))
    Code := toI16 (leNat ((ch.drop 10).take 2))
    Latency := leNat ((ch.drop 12).take 4)
    EpochEvent := ch.getD 16 0
    Accept2 := ch.getD 17 0
    Accuracy := ch.getD 18 0 }

/-- Split a byte list into consecutive chunks of `n` bytes (the record
walk performed by `Struct.iter_unpack`). -/
def chunksOf (n : Nat) (l : List Nat) : List (List Nat) :=
  if h : n = 0 ∨ l = [] then [] else (l.take n) :: chunksOf n (l.drop n)
termination_by l.length
decreasing_by
  push_neg at h
  cases l with
  | nil => exact absurd rfl h.2
  | cons a l =>
    simp only [List.length_drop, List.length_cons]
    omega

/-- The parsing closure returned for `event_type == 1`:
`Struct('<HBcl').iter_unpack(buffer)` mapped through the record
constructor.  `iter_unpack` demands that the buffer length be a multiple
of the 8-byte record size (struct.error otherwise, modelled as `none`). -/
def eventDecoder1 (buffer : List Nat) : Option (List CNTEvent) :=
  if buffer.length % 8 = 0 then
    some ((chunksOf 8 buffer).map (fun ch => CNTEvent.ev1 (decodeEvent1 ch)))
  else none

/-- The parsing closure returned for `event_type == 2` (19-byte
records). -/
def eventDecoder2 (buffer : List Nat) : Option (List CNTEvent) :=
  if buffer.length % 19 = 0 then
    some ((chunksOf 19 buffer).map (fun ch => CNTEvent.ev2 (decodeEvent2 ch)))
  else none

/-- The parsing closure returned for `event_type == 3` (same struct
pattern as type 2). -/
def eventDecoder3 (buffer : List Nat) : Option (List CNTEvent) :=
  if buffer.length % 19 = 0 then
    some ((chunksOf 19 buffer).map (fun ch => CNTEvent.ev3 (decodeEvent3 ch)))
  else none

/-- `_get_event_parser(event_type)` of the source: dispatch on the event
type tag, returning the per-type parsing closure, and raise
`ValueError('unknown CNT even type ...')` on any other tag. -/
def _get_event_decoder (event_type : Nat) : Except CntError (List Nat → Option (List CNTEvent)) :=
  if event_type = 1 then .ok eventDecoder1
  else if event_type = 2 then .ok eventDecoder2
  else if event_type = 3 then .ok eventDecoder3
  else .error .unknownEventType

/-! ### Concrete files used as test vectors

Bytes are zero except where noted; offsets follow the header layout
(`n_channels` at 370, `n_samples` at 864, stored table position at
886). -/

/-- A 1000-byte file with `n_channels = 0`, `n_samples = 0` and stored
table position `900` (bytes `132, 3` at 886), cursor at 37. -/
def fileA : FileHandle :=
  ⟨1000, fun i => if i = 886 then 132 else if i = 887 then 3 else 0, 37⟩

/-- A file of 8592393092 bytes with `n_channels = 32768` (byte `128` at
371), `n_samples = 65536` (byte `1` at 866) and stored table position
`2458500` (bytes `132, 131, 37` at 886): the analytic offset for width 4
is `900 + 75 * 32768 + 4 * 32768 * 65536 = 2458500 + 2 ^ 33`, which the
file accommodates, and its stored u32 is `2458500`. -/
def fileB : FileHandle :=
  ⟨8592393092,
    fun i =>
      if i = 371 then 128
      else if i = 866 then 1
      else if i = 886 then 132
      else if i = 887 then 131
      else if i = 888 then 37
      else 0,
    0⟩

/-- A 20-byte file whose first byte is 2, with the cursor parked at 5. -/
def fileC : FileHandle := ⟨20, fun i => if i = 0 then 2 else 0, 5⟩

/-- A 1000-byte file whose stored table position `4096` (byte `16` at
887) exceeds the file size. -/
def fileD : FileHandle := ⟨1000, fun i => if i = 887 then 16 else 0, 0⟩

/-- A file of 4295034596 bytes with `n_channels = 32`, `n_samples =
67109864` (bytes `232, 3, 0, 4` at 864) and stored table position
`67300` (bytes `228, 6, 1` at 886): the analytic offset for width 2 is
`67300 + 2 ^ 32 = 4295034596`, whose stored u32 wrapped once to
`67300`. -/
def fileE : FileHandle :=
  ⟨4295034596,
    fun i =>
      if i = 370 then 32
      else if i = 864 then 232
      else if i = 865 then 3
      else if i = 867 then 4
      else if i = 886 then 228
      else if i = 887 then 6
      else if i = 888 then 1
      else 0,
    0⟩

/-! ### Cursor bookkeeping facts (all definitional) -/

theorem fseek_fread_snd (f : FileHandle) (n p : Nat) : fseek (fread f n).2 p = fseek f p := rfl

theorem fseek_fseek (f : FileHandle) (p q : Nat) : fseek (fseek f p) q = fseek f q := rfl

theorem fread_snd_size (f : FileHandle) (n : Nat) : (fread f n).2.size = f.size := rfl

theorem fseek_size (f : FileHandle) (p : Nat) : (fseek f p).size = f.size := rfl

theorem fseek_pos (f : FileHandle) (p : Nat) : (fseek f p).pos = p := rfl

theorem fseek_self (f : FileHandle) : fseek f f.pos = f := rfl

theorem petpAux_zero (etp fs : Nat) : petpAux 0 etp fs = [] := rfl

theorem petpAux_succ (n etp fs : Nat) :
    petpAux (n + 1) etp fs =
      if etp ≤ fs then etp :: petpAux n (etp + 4294967296) fs else [] := rfl

/-! ### The candidate-position enumeration -/

theorem petpAux_congr (n : Nat) : ∀ (m etp fs : Nat), fs + 1 - etp ≤ n → fs + 1 - etp ≤ m →
    petpAux n etp fs = petpAux m etp fs := by
  induction n with
  | zero =>
    intro m etp fs hn _
    cases m with
    | zero => rfl
    | succ m =>
      simp only [petpAux]
      rw [if_neg (by omega)]
  | succ n ih =>
    intro m etp fs hn hm
    cases m with
    | zero =>
      simp only [petpAux]
      rw [if_neg (by omega)]
    | succ m =>
      simp only [petpAux]
      by_cases h : etp ≤ fs
      · rw [if_pos h, if_pos h, ih m (etp + 4294967296) fs (by omega) (by omega)]
      · rw [if_neg h, if_neg h]

/-- The `while` loop recurrence: while the candidate does not exceed the
file size it is yielded and the loop continues `2 ^ 32` further on. -/
theorem possible_event_table_pos_eq (etp fs : Nat) :
    possible_event_table_pos etp fs =
      if etp ≤ fs then etp :: possible_event_table_pos (etp + 4294967296) fs else [] := by
  unfold possible_event_table_pos
  by_cases h : etp ≤ fs
  · rw [if_pos h]
    have h1 : fs + 1 - etp = (fs - etp) + 1 := by omega
    rw [h1, petpAux_succ, if_pos h]
    exact congrArg _ (petpAux_congr _ _ _ _ (by omega) (by omega))
  · rw [if_neg h]
    have h1 : fs + 1 - etp = 0 := by omega
    rw [h1]
    exact petpAux_zero etp fs

theorem petpAux_mem : ∀ (n etp fs p : Nat), p ∈ petpAux n etp fs →
    (∃ k, p = etp + 4294967296 * k) ∧ p ≤ fs := by
  intro n
  induction n with
  | zero => intro etp fs p hp; simp [petpAux] at hp
  | succ n ih =>
    intro etp fs p hp
    simp only [petpAux] at hp
    by_cases h : etp ≤ fs
    · rw [if_pos h] at hp
      rcases List.mem_cons.1 hp with h1 | h1
      · exact ⟨⟨0, by omega⟩, by omega⟩
      · obtain ⟨⟨k, hk⟩, hle⟩ := ih _ _ _ h1
        exact ⟨⟨k + 1, by omega⟩, hle⟩
    · rw [if_neg h] at hp
      simp at hp

/-- Every candidate is the stored value plus a whole number of `2 ^ 32`
wraparounds and does not exceed the file size. -/
theorem mem_possible_event_table_pos {etp fs p : Nat}
    (hp : p ∈ possible_event_table_pos etp fs) :
    (∃ k, p = etp + 4294967296 * k) ∧ p ≤ fs :=
  petpAux_mem _ _ _ _ hp

/-- Any value congruent to the stored one (modulo `2 ^ 32`) and within
the file size is reached by the enumeration, and everything enumerated
before it is smaller. -/
theorem possible_event_table_pos_decomp : ∀ (k d T fs : Nat), T = d + 4294967296 * k →
    T ≤ fs →
    ∃ l1 l2, possible_event_table_pos d fs = l1 ++ T :: l2 ∧
      ∀ p ∈ l1, p < T ∧ ∃ j, p = d + 4294967296 * j := by
  intro k
  induction k with
  | zero =>
    intro d T fs hT hfs
    have hTd : T = d := by omega
    subst hTd
    refine ⟨[], possible_event_table_pos (T + 4294967296) fs, ?_, by simp⟩
    rw [possible_event_table_pos_eq, if_pos (by omega)]
    rfl
  | succ k ih =>
    intro d T fs hT hfs
    obtain ⟨l1, l2, heq, hmem⟩ := ih (d + 4294967296) T fs (by omega) hfs
    refine ⟨d :: l1, l2, ?_, ?_⟩
    · rw [possible_event_table_pos_eq, if_pos (by omega), heq]
      rfl
    · intro p hp
      rcases List.mem_cons.1 hp with h1 | h1
      · exact ⟨by omega, 0, by omega⟩
      · obtain ⟨hlt, j, hj⟩ := hmem p h1
        exact ⟨hlt, j + 1, by omega⟩

/-! ### The solution table -/

theorem solTableFor_append (xs ys nb : List Nat) (c : Nat) (s : Int) :
    solTableFor (xs ++ ys) nb c s = solTableFor xs nb c s ++ solTableFor ys nb c s := by
  induction xs with
  | nil => rfl
  | cons p ps ih =>
    simp only [List.cons_append, solTableFor, List.append_eq, ih, List.append_assoc]

theorem mem_solTableFor {q : Nat × Nat × Nat} : ∀ {cands : List Nat} {nb : List Nat} {c : Nat}
    {s : Int}, q ∈ solTableFor cands nb c s ↔ ∃ p ∈ cands, ∃ w ∈ nb, solEntry c s p w = q := by
  intro cands
  induction cands with
  | nil => simp [solTableFor]
  | cons p ps ih =>
    intro nb c s
    simp only [solTableFor, List.mem_append, List.mem_map, ih, List.mem_cons]
    constructor
    · rintro (⟨w, hw, rfl⟩ | ⟨p', hp', w, hw, rfl⟩)
      · exact ⟨p, Or.inl rfl, w, hw, rfl⟩
      · exact ⟨p', Or.inr hp', w, hw, rfl⟩
    · rintro ⟨p', hp' | hp', w, hw, rfl⟩
      · subst hp'
        exact Or.inl ⟨w, hw, rfl⟩
      · exact Or.inr ⟨p', hp', w, hw, rfl⟩

/-! ### The search over the solution table -/

theorem pickFirstMin_eq_none : ∀ {l : List (Nat × Nat × Nat)}, pickFirstMin l = none → l = [] := by
  intro l h
  cases l with
  | nil => rfl
  | cons e es =>
    simp only [pickFirstMin] at h
    cases h2 : pickFirstMin es <;> rw [h2] at h <;> dsimp only at h
    · exact Option.noConfusion h
    · split at h <;> exact Option.noConfusion h

/-- `sorted(sol_table, key=distance)[0]` returns a row splitting the
table into a strictly-greater prefix and a no-smaller suffix: the first
row of minimal distance. -/
theorem pickFirstMin_spec : ∀ (l : List (Nat × Nat × Nat)) (r : Nat × Nat × Nat),
    pickFirstMin l = some r →
    ∃ pre post, l = pre ++ r :: post ∧ (∀ q ∈ pre, r.2.2 < q.2.2) ∧
      (∀ q ∈ post, r.2.2 ≤ q.2.2) := by
  intro l
  induction l with
  | nil => intro r h; simp [pickFirstMin] at h
  | cons e es ih =>
    intro r h
    simp only [pickFirstMin] at h
    cases hes : pickFirstMin es with
    | none =>
      rw [hes] at h
      dsimp only at h
      simp only [Option.some.injEq] at h
      subst h
      have hnil : es = [] := pickFirstMin_eq_none hes
      subst hnil
      exact ⟨[], [], rfl, by simp, by simp⟩
    | some r' =>
      rw [hes] at h
      dsimp only at h
      obtain ⟨pre, post, heq, hpre, hpost⟩ := ih r' hes
      by_cases hlt : r'.2.2 < e.2.2
      · rw [if_pos hlt] at h
        simp only [Option.some.injEq] at h
        subst h
        refine ⟨e :: pre, post, by simp [heq], ?_, hpost⟩
        intro q hq
        rcases List.mem_cons.1 hq with h1 | h1
        · subst h1; exact hlt
        · exact hpre q h1
      · rw [if_neg hlt] at h
        simp only [Option.some.injEq] at h
        subst h
        refine ⟨[], es, rfl, by simp, ?_⟩
        intro q hq
        rw [heq] at hq
        rcases List.mem_append.1 hq with h1 | h1
        · have := hpre q h1; omega
        · rcases List.mem_cons.1 h1 with h2 | h2
          · subst h2; omega
          · have := hpost q h2; omega

/-- The search loop's result splits the accumulated-plus-remaining rows
into a strictly-greater prefix and a no-smaller suffix, i.e. it is the
first row of minimal distance (the zero short-circuit included). -/
theorem searchSol_spec : ∀ (l acc : List (Nat × Nat × Nat)) (r : Nat × Nat × Nat),
    (∀ q ∈ acc, q.2.2 ≠ 0) → searchSol acc l = some r →
    ∃ pre post, acc ++ l = pre ++ r :: post ∧ (∀ q ∈ pre, r.2.2 < q.2.2) ∧
      (∀ q ∈ post, r.2.2 ≤ q.2.2) := by
  intro l
  induction l with
  | nil =>
    intro acc r _ h
    simp only [searchSol] at h
    simpa using pickFirstMin_spec acc r h
  | cons e es ih =>
    intro acc r hacc h
    simp only [searchSol] at h
    by_cases he : e.2.2 = 0
    · rw [if_pos he] at h
      simp only [Option.some.injEq] at h
      subst h
      refine ⟨acc, es, rfl, ?_, ?_⟩
      · intro q hq
        have := hacc q hq
        omega
      · intro q _
        omega
    · rw [if_neg he] at h
      have hacc2 : ∀ q ∈ acc ++ [e], q.2.2 ≠ 0 := by
        intro q hq
        rcases List.mem_append.1 hq with h1 | h1
        · exact hacc q h1
        · simp only [List.mem_singleton] at h1
          subst h1
          exact he
      obtain ⟨pre, post, heq, hpre, hpost⟩ := ih (acc ++ [e]) r hacc2 h
      refine ⟨pre, post, ?_, hpre, hpost⟩
      rw [← heq]
      simp

/-- If the rows ahead contain a zero-distance row whose predecessors are
all nonzero, the search returns exactly that row (the `distance == 0`
early return). -/
theorem searchSol_first_zero : ∀ (l1 : List (Nat × Nat × Nat)) (z : Nat × Nat × Nat)
    (l2 acc : List (Nat × Nat × Nat)), z.2.2 = 0 → (∀ q ∈ l1, q.2.2 ≠ 0) →
    searchSol acc (l1 ++ z :: l2) = some z := by
  intro l1
  induction l1 with
  | nil =>
    intro z l2 acc hz _
    simp only [List.nil_append, searchSol]
    rw [if_pos hz]
  | cons e l1 ih =>
    intro z l2 acc hz hl1
    simp only [List.cons_append, searchSol]
    rw [if_neg (hl1 e (by simp))]
    exact ih z l2 (acc ++ [e]) hz (fun q hq => hl1 q (by simp [hq]))

/-- Any list containing a zero-distance row has a first zero-distance
row. -/
theorem exists_first_zero : ∀ (l : List (Nat × Nat × Nat)) (z : Nat × Nat × Nat), z ∈ l →
    z.2.2 = 0 → ∃ l1 z' l2, l = l1 ++ z' :: l2 ∧ z'.2.2 = 0 ∧ ∀ q ∈ l1, q.2.2 ≠ 0 := by
  intro l
  induction l with
  | nil => intro z hz _; simp at hz
  | cons e es ih =>
    intro z hz h0
    by_cases he : e.2.2 = 0
    · exact ⟨[], e, es, rfl, he, by simp⟩
    · rcases List.mem_cons.1 hz with h1 | h1
      · subst h1; exact absurd h0 he
      · obtain ⟨l1, z', l2, heq, hz', hl1⟩ := ih z h1 h0
        refine ⟨e :: l1, z', l2, by simp [heq], hz', ?_⟩
        intro q hq
        rcases List.mem_cons.1 hq with h2 | h2
        · subst h2; exact he
        · exact hl1 q h2

/-! ### Running the resolver -/

/-- Running the resolver on a handle whose three header reads succeed
and whose `data_format` is valid: it reduces to the core search on the
decoded fields, restoring the cursor on success and signalling the
empty-table `IndexError` otherwise. -/
theorem resolver_run (f : FileHandle) (fmt : String) (nbl : List Nat) (s : Int) (c d : Nat)
    (hpnb : possibleNBytesFor fmt = some nbl)
    (hs : headerNSamples f = some s) (hc : headerNChannels f = some c)
    (hd : headerDeclaredPos f = some d) :
    _compute_robust_event_table_position f fmt =
      match get_most_possible_sol d f.size nbl s c with
      | some sol => .ok ((c, s, sol.1, sol.2.1), sol.2.2 != 0, f)
      | none => .error (.indexError, fseek f f.size) := by
  unfold _compute_robust_event_table_position
  simp only [hs, hc, hpnb, hd]
  cases get_most_possible_sol d f.size nbl s c with
  | none => rfl
  | some sol =>
    obtain ⟨etp, nb, dist⟩ := sol
    rfl

/-- If some width in the candidate set matches the stored position
analytically (up to `2 ^ 32` wraparound, within the file), the search
returns a zero-distance row, itself analytic for its own returned
width and congruent to the stored position. -/
theorem gmps_zero_exists (d fs : Nat) (nbl : List Nat) (s : Int) (c : Nat) (w T : Nat)
    (hw : w ∈ nbl) (hT : (T : Int) = calcEventTablePos c s w) (hd : d = T % 4294967296)
    (hfs : T ≤ fs) :
    ∃ etp nb, get_most_possible_sol d fs nbl s c = some (etp, nb, 0) ∧ nb ∈ nbl ∧
      (etp : Int) = calcEventTablePos c s nb ∧ etp % 4294967296 = d % 4294967296 ∧
      etp ≤ fs := by
  obtain ⟨k, hk⟩ : ∃ k, T = d + 4294967296 * k := ⟨T / 4294967296, by omega⟩
  obtain ⟨l1, l2, hdec, -⟩ := possible_event_table_pos_decomp k d T fs hk hfs
  have hzmem : solEntry c s T w ∈ solTableFor (possible_event_table_pos d fs) nbl c s := by
    rw [mem_solTableFor]
    exact ⟨T, by rw [hdec]; simp, w, hw, rfl⟩
  have hz0 : (solEntry c s T w).2.2 = 0 := by
    simp [solEntry, ← hT]
  obtain ⟨t1, z', t2, htdec, hz', ht1⟩ := exists_first_zero _ _ hzmem hz0
  have hres : get_most_possible_sol d fs nbl s c = some z' := by
    unfold get_most_possible_sol
    rw [htdec]
    exact searchSol_first_zero t1 z' t2 [] hz' ht1
  have hz'mem : z' ∈ solTableFor (possible_event_table_pos d fs) nbl c s := by
    rw [htdec]
    simp
  rw [mem_solTableFor] at hz'mem
  obtain ⟨p, hp, w', hw', hentry⟩ := hz'mem
  obtain ⟨⟨j, hj⟩, hple⟩ := mem_possible_event_table_pos hp
  have hcalc : (p : Int) = calcEventTablePos c s w' := by
    have h3 : (calcEventTablePos c s w' - (p : Int)).natAbs = 0 := by
      rw [show (calcEventTablePos c s w' - (p : Int)).natAbs = (solEntry c s p w').2.2 from rfl,
        hentry, hz']
    have h4 := Int.natAbs_eq_zero.mp h3
    omega
  have hz'eq : z' = (p, w', 0) := by
    rw [← hentry]
    simp [solEntry, ← hcalc]
  refine ⟨p, w', ?_, hw', hcalc, by omega, hple⟩
  rw [hres, hz'eq]

/-- If every row the nested loops enumerate strictly before the row
`(T, w)` has nonzero distance and `(T, w)` has distance zero, the search
returns exactly `(T, w, 0)`.  The width list is split as
`n1 ++ w :: n2`; `hprev` covers all widths at earlier candidate
positions, `hn1` the widths tried before `w` at `T` itself. -/
theorem gmps_exact (d fs : Nat) (n1 n2 : List Nat) (s : Int) (c : Nat) (w T : Nat)
    (hT : (T : Int) = calcEventTablePos c s w)
    (hk : ∃ k, T = d + 4294967296 * k) (hfs : T ≤ fs)
    (hprev : ∀ p, (∃ j, p = d + 4294967296 * j) → p < T →
      ∀ w' ∈ n1 ++ w :: n2, (calcEventTablePos c s w' - (p : Int)).natAbs ≠ 0)
    (hn1 : ∀ w' ∈ n1, (calcEventTablePos c s w' - (T : Int)).natAbs ≠ 0) :
    get_most_possible_sol d fs (n1 ++ w :: n2) s c = some (T, w, 0) := by
  obtain ⟨k, hk⟩ := hk
  obtain ⟨l1, l2, hdec, hl1⟩ := possible_event_table_pos_decomp k d T fs hk hfs
  unfold get_most_possible_sol
  rw [hdec, solTableFor_append]
  have hrow : solTableFor (T :: l2) (n1 ++ w :: n2) c s =
      n1.map (solEntry c s T) ++ solEntry c s T w ::
        (n2.map (solEntry c s T) ++ solTableFor l2 (n1 ++ w :: n2) c s) := by
    simp [solTableFor, List.map_append]
  rw [hrow, ← List.append_assoc]
  have hzeq : solEntry c s T w = (T, w, 0) := by
    simp [solEntry, ← hT]
  rw [← hzeq]
  apply searchSol_first_zero
  · rw [hzeq]
  · intro q hq
    rcases List.mem_append.1 hq with h1 | h1
    · rw [mem_solTableFor] at h1
      obtain ⟨p, hp, w', hw', hentry⟩ := h1
      obtain ⟨hplt, j, hj⟩ := hl1 p hp
      rw [← hentry]
      exact hprev p ⟨j, hj⟩ hplt w' hw'
    · obtain ⟨w', hw', hentry⟩ := List.mem_map.1 h1
      rw [← hentry]
      exact hn1 w' hw'

/-- With a single candidate width matching `T` analytically, the search
returns `(T, w, 0)`: no other width can produce an earlier exact
match. -/
theorem gmps_exact_singleton (d fs : Nat) (s : Int) (c w T : Nat)
    (hT : (T : Int) = calcEventTablePos c s w)
    (hd : d = T % 4294967296) (hfs : T ≤ fs) :
    get_most_possible_sol d fs [w] s c = some (T, w, 0) := by
  have h := gmps_exact d fs [] [] s c w T hT ⟨T / 4294967296, by omega⟩ hfs ?_ (by simp)
  · simpa using h
  · intro p hj hplt w' hw'
    simp only [List.nil_append, List.mem_singleton] at hw'
    subst hw'
    rw [← hT, Int.natAbs_ne_zero]
    omega

/-- With width set `[2, 4]` and `T` analytic for the width 2 tried
first, the search returns `(T, 2, 0)`: a width-4 row can only match
exactly at an earlier (smaller) candidate when `n_samples` is negative,
which the bound on `n_channels` rules out. -/
theorem gmps_exact_auto2 (d fs : Nat) (s : Int) (c T : Nat) (hc16 : c < 65536)
    (hT : (T : Int) = calcEventTablePos c s 2)
    (hd : d = T % 4294967296) (hfs : T ≤ fs) :
    get_most_possible_sol d fs [2, 4] s c = some (T, 2, 0) := by
  obtain ⟨u, hu⟩ : ∃ u : Int, (c : Int) * s = u := ⟨_, rfl⟩
  have e2 : calcEventTablePos c s 2 = 900 + 75 * (c : Int) + 2 * u := by
    rw [← hu]; unfold calcEventTablePos; ring
  have e4 : calcEventTablePos c s 4 = 900 + 75 * (c : Int) + 4 * u := by
    rw [← hu]; unfold calcEventTablePos; ring
  have h := gmps_exact d fs [] [4] s c 2 T hT ⟨T / 4294967296, by omega⟩ hfs ?_ (by simp)
  · simpa using h
  · intro p hj hplt w' hw'
    obtain ⟨j, hj⟩ := hj
    rw [Int.natAbs_ne_zero]
    simp only [List.nil_append, List.mem_cons, List.not_mem_nil, or_false] at hw'
    rw [e2] at hT
    rcases hw' with rfl | rfl
    · rw [e2]
      omega
    · rw [e4]
      omega

/-- With width set `[2, 4]`, `T` analytic for width 4 and the stored
value wrapped exactly once, the search returns `(T, 4, 0)`: the only
earlier candidate is the stored value itself, `2 ^ 32` below `T`, and
neither width can match it exactly under the `u16` channel bound. -/
theorem gmps_exact_auto4_wrap (d fs : Nat) (s : Int) (c T : Nat) (hc16 : c < 65536)
    (hT : (T : Int) = calcEventTablePos c s 4)
    (hwrap : T = d + 4294967296) (hd32 : d < 4294967296) (hfs : T ≤ fs) :
    get_most_possible_sol d fs [2, 4] s c = some (T, 4, 0) := by
  obtain ⟨u, hu⟩ : ∃ u : Int, (c : Int) * s = u := ⟨_, rfl⟩
  have e2 : calcEventTablePos c s 2 = 900 + 75 * (c : Int) + 2 * u := by
    rw [← hu]; unfold calcEventTablePos; ring
  have e4 : calcEventTablePos c s 4 = 900 + 75 * (c : Int) + 4 * u := by
    rw [← hu]; unfold calcEventTablePos; ring
  have h := gmps_exact d fs [2] [] s c 4 T hT ⟨1, by omega⟩ hfs ?_ ?_
  · simpa using h
  · intro p hj hplt w' hw'
    obtain ⟨j, hj⟩ := hj
    rw [Int.natAbs_ne_zero]
    simp only [List.cons_append, List.nil_append, List.mem_cons, List.not_mem_nil, or_false] at hw'
    rw [e4] at hT
    rcases hw' with rfl | rfl
    · rw [e2]
      omega
    · rw [e4]
      omega
  · intro w' hw'
    simp only [List.mem_cons, List.not_mem_nil, or_false] at hw'
    subst hw'
    rw [Int.natAbs_ne_zero, e2]
    rw [e4] at hT
    omega

/-- The width set is one of the three tables. -/
theorem possibleNBytesFor_cases {fmt : String} {nbl : List Nat}
    (h : possibleNBytesFor fmt = some nbl) : nbl = [2, 4] ∨ nbl = [2] ∨ nbl = [4] := by
  unfold possibleNBytesFor at h
  by_cases h1 : fmt = "auto"
  · rw [if_pos h1] at h
    exact Or.inl (Option.some.inj h).symm
  rw [if_neg h1] at h
  by_cases h2 : fmt = "int16"
  · rw [if_pos h2] at h
    exact Or.inr (Or.inl (Option.some.inj h).symm)
  rw [if_neg h2] at h
  by_cases h3 : fmt = "int32"
  · rw [if_pos h3] at h
    exact Or.inr (Or.inr (Option.some.inj h).symm)
  rw [if_neg h3] at h
  exact Option.noConfusion h

/-- The returned row of a successful search comes from the enumerated
table: its offset is the stored value plus whole wraparounds, is within
the file, and its width is one of the candidates. -/
theorem gmps_result_mem {d fs : Nat} {nbl : List Nat} {s : Int} {c : Nat} {r : Nat × Nat × Nat}
    (h : get_most_possible_sol d fs nbl s c = some r) :
    (∃ k, r.1 = d + 4294967296 * k) ∧ r.1 ≤ fs ∧ r.2.1 ∈ nbl := by
  unfold get_most_possible_sol at h
  obtain ⟨pre, post, heq, -, -⟩ := searchSol_spec _ [] r (by simp) h
  rw [List.nil_append] at heq
  have hrmem : r ∈ solTableFor (possible_event_table_pos d fs) nbl c s := by
    rw [heq]
    simp
  rw [mem_solTableFor] at hrmem
  obtain ⟨p, hp, w', hw', hentry⟩ := hrmem
  obtain ⟨⟨k, hk⟩, hple⟩ := mem_possible_event_table_pos hp
  rw [← hentry]
  exact ⟨⟨k, hk⟩, hple, hw'⟩

/-- Inversion of a successful resolver run: the header reads and the
format table all succeeded, the core search produced the returned
offset, width and distance, and the returned handle is the input handle
with its cursor restored. -/
theorem resolver_ok_inv {f : FileHandle} {fmt : String} {c : Nat} {s : Int} {pos nb : Nat}
    {warned : Bool} {f' : FileHandle}
    (h : _compute_robust_event_table_position f fmt =
      .ok ((c, s, pos, nb), warned, f')) :
    ∃ nbl d dist, possibleNBytesFor fmt = some nbl ∧ headerNSamples f = some s ∧
      headerNChannels f = some c ∧ headerDeclaredPos f = some d ∧
      get_most_possible_sol d f.size nbl s c = some (pos, nb, dist) ∧
      warned = (dist != 0) ∧ f' = f := by
  unfold _compute_robust_event_table_position at h
  cases hs : headerNSamples f with
  | none => rw [hs] at h; exact Except.noConfusion h
  | some s0 =>
  rw [hs] at h
  cases hc : headerNChannels f with
  | none => rw [hc] at h; exact Except.noConfusion h
  | some c0 =>
  rw [hc] at h
  cases hp : possibleNBytesFor fmt with
  | none => rw [hp] at h; exact Except.noConfusion h
  | some nbl =>
  rw [hp] at h
  cases hd : headerDeclaredPos f with
  | none => rw [hd] at h; exact Except.noConfusion h
  | some d =>
  rw [hd] at h
  dsimp only at h
  cases hg : get_most_possible_sol d f.size nbl s0 c0 with
  | none => rw [hg] at h; exact Except.noConfusion h
  | some sol =>
  obtain ⟨etp, nb0, dist⟩ := sol
  rw [hg] at h
  dsimp only at h
  simp only [Except.ok.injEq, Prod.mk.injEq] at h
  obtain ⟨⟨hc0, hs0, hetp, hnb0⟩, hwarn, hf'⟩ := h
  subst hc0
  subst hs0
  subst hetp
  subst hnb0
  refine ⟨nbl, d, dist, rfl, rfl, rfl, rfl, hg, hwarn.symm, ?_⟩
  rw [← hf']
  exact fseek_self f

/-! ### Claims -/

/-- C3: When the search returns a row, that row splits the enumerated
solution table into a strictly-greater-distance prefix and a
no-smaller-distance suffix: it is the row of minimum absolute distance,
and the first such row in enumeration order.  Since `solTableFor`
enumerates candidate offsets in increasing wraparound order (outer loop)
and widths in the given order `[2, 4]` (inner loop), ties resolve to the
smallest wraparound count and then the smallest width; a zero-distance
row, being a global minimum, is likewise the first row returned, which
is what the short-circuit in the source produces. -/
theorem claim_C3_selection_rule (declared file_size : Nat) (possible_n_bytes : List Nat)
    (n_samples : Int) (n_channels : Nat) (r : Nat × Nat × Nat)
    (h : get_most_possible_sol declared file_size possible_n_bytes n_samples n_channels =
      some r) :
    ∃ pre post,
      solTableFor (possible_event_table_pos declared file_size) possible_n_bytes
          n_channels n_samples = pre ++ r :: post ∧
        (∀ q ∈ pre, r.2.2 < q.2.2) ∧ (∀ q ∈ post, r.2.2 ≤ q.2.2) := by
  unfold get_most_possible_sol at h
  simpa using searchSol_spec _ [] r (by simp) h

theorem claim_C3_witness :
    get_most_possible_sol 100 1000 [2, 4] 1 1 = some (100, 2, 877) ∧
    ∃ pre post,
      solTableFor (possible_event_table_pos 100 1000) [2, 4] 1 1 = pre ++ (100, 2, 877) :: post ∧
        (∀ q ∈ pre, 877 < q.2.2) ∧ (∀ q ∈ post, 877 ≤ q.2.2) :=
  ⟨rfl, claim_C3_selection_rule 100 1000 [2, 4] 1 1 (100, 2, 877) rfl⟩

/-- C4: whenever the resolver returns a result, the returned
`event_table_pos` is non-negative, does not exceed the file length, and
is congruent to the stored (declared) position modulo `2 ^ 32`. -/
theorem claim_C4_result_invariants {f : FileHandle} {fmt : String} {c : Nat} {s : Int}
    {pos nb : Nat} {warned : Bool} {f' : FileHandle} {d : Nat}
    (h : _compute_robust_event_table_position f fmt = .ok ((c, s, pos, nb), warned, f'))
    (hd : headerDeclaredPos f = some d) :
    0 ≤ (pos : Int) ∧ pos ≤ f.size ∧ pos % 4294967296 = d % 4294967296 := by
  obtain ⟨nbl, d0, dist, hpnb, hs, hc, hd0, hg, -, -⟩ := resolver_ok_inv h
  have hdd : d0 = d := by
    rw [hd0] at hd
    exact Option.some.inj hd
  subst hdd
  obtain ⟨⟨k, hk⟩, hle, -⟩ := gmps_result_mem hg
  dsimp only at hk hle
  exact ⟨by omega, hle, by omega⟩

theorem claim_C4_witness :
    0 ≤ (900 : Int) ∧ 900 ≤ fileA.size ∧ 900 % 4294967296 = 900 % 4294967296 :=
  @claim_C4_result_invariants fileA "auto" 0 0 900 2 false fileA 900 rfl rfl

/-- C6: any `data_format` other than `"auto"`, `"int16"`, `"int32"`
makes the resolver fail with the configuration error, before any width
guessing and without producing a result (the file only needs to be long
enough for the two header reads that precede the check, i.e. 868
bytes). -/
theorem claim_C6_config_error (f : FileHandle) (fmt : String)
    (h1 : fmt ≠ "auto") (h2 : fmt ≠ "int16") (h3 : fmt ≠ "int32")
    (hsize : 868 ≤ f.size) :
    _compute_robust_event_table_position f fmt =
      .error (.configError, (fread (fseek f 370) 2).2) := by
  have hlen1 : (fread (fseek f 864) 4).1.length = 4 := by
    simp [fread, fseek]
    omega
  have hlen2 : (fread (fseek f 370) 2).1.length = 2 := by
    simp [fread, fseek]
    omega
  have hs : headerNSamples f = some (decodeI32 (fread (fseek f 864) 4).1) := by
    simp only [headerNSamples]
    rw [if_pos hlen1]
  have hc : headerNChannels f = some (leNat (fread (fseek f 370) 2).1) := by
    simp only [headerNChannels]
    rw [if_pos hlen2]
  have hpnb : possibleNBytesFor fmt = none := by
    unfold possibleNBytesFor
    rw [if_neg h1, if_neg h2, if_neg h3]
  unfold _compute_robust_event_table_position
  rw [hs, hc, hpnb]

theorem claim_C6_witness :
    _compute_robust_event_table_position fileA "float32" =
      .error (.configError, (fread (fseek fileA 370) 2).2) :=
  claim_C6_config_error fileA "float32" (by decide) (by decide) (by decide) (by decide)

/-- C7: the `"int16"` hint forces the returned `n_bytes` to 2 on every
input on which the resolver returns, and `"int32"` forces it to 4: the
search is restricted to the single-width table, so no width-4
(respectively width-2) row can ever be selected, whatever its
distance. -/
theorem claim_C7_width_hint :
    (∀ (f : FileHandle) (c : Nat) (s : Int) (pos nb : Nat) (warned : Bool) (f' : FileHandle),
      _compute_robust_event_table_position f "int16" = .ok ((c, s, pos, nb), warned, f') →
      nb = 2) ∧
    (∀ (f : FileHandle) (c : Nat) (s : Int) (pos nb : Nat) (warned : Bool) (f' : FileHandle),
      _compute_robust_event_table_position f "int32" = .ok ((c, s, pos, nb), warned, f') →
      nb = 4) := by
  constructor
  · intro f c s pos nb warned f' h
    obtain ⟨nbl, d, dist, hpnb, -, -, -, hg, -, -⟩ := resolver_ok_inv h
    have hnbl : nbl = [2] := by
      have h2 : possibleNBytesFor "int16" = some [2] := by decide
      rw [h2] at hpnb
      exact (Option.some.inj hpnb).symm
    subst hnbl
    obtain ⟨-, -, hmem⟩ := gmps_result_mem hg
    dsimp only at hmem
    simpa using hmem
  · intro f c s pos nb warned f' h
    obtain ⟨nbl, d, dist, hpnb, -, -, -, hg, -, -⟩ := resolver_ok_inv h
    have hnbl : nbl = [4] := by
      have h4 : possibleNBytesFor "int32" = some [4] := by decide
      rw [h4] at hpnb
      exact (Option.some.inj hpnb).symm
    subst hnbl
    obtain ⟨-, -, hmem⟩ := gmps_result_mem hg
    dsimp only at hmem
    simpa using hmem

theorem claim_C7_witness :
    _compute_robust_event_table_position fileA "int16" = .ok ((0, 0, 900, 2), false, fileA) ∧
    _compute_robust_event_table_position fileA "int32" = .ok ((0, 0, 900, 4), false, fileA) ∧
    (2 : Nat) = 2 ∧ (4 : Nat) = 4 :=
  ⟨rfl, rfl, claim_C7_width_hint.1 fileA 0 0 900 2 false fileA rfl,
    claim_C7_width_hint.2 fileA 0 0 900 4 false fileA rfl⟩

/-- C8: every event-type tag other than 1, 2, 3 makes the decoder
factory fail with the unknown-event-type error instead of returning any
parsing closure. -/
theorem claim_C8_unknown_event_type (event_type : Nat)
    (h1 : event_type ≠ 1) (h2 : event_type ≠ 2) (h3 : event_type ≠ 3) :
    _get_event_decoder event_type = .error .unknownEventType := by
  unfold _get_event_decoder
  rw [if_neg h1, if_neg h2, if_neg h3]

theorem claim_C8_witness :
    _get_event_decoder 0 = .error .unknownEventType ∧
    _get_event_decoder 4 = .error .unknownEventType :=
  ⟨claim_C8_unknown_event_type 0 (by decide) (by decide) (by decide),
    claim_C8_unknown_event_type 4 (by decide) (by decide) (by decide)⟩

/-- C10: a stored table position exceeding the file length makes the
candidate enumeration empty, and the resolver then fails with the
`IndexError` of indexing the empty sorted solution table — not with a
result and not with a format-level error (`shortRead` /
`unknownEventType`), which are different constructors. -/
theorem claim_C10_declared_beyond_eof (f : FileHandle) (fmt : String) (nbl : List Nat)
    (s : Int) (c d : Nat)
    (hpnb : possibleNBytesFor fmt = some nbl)
    (hs : headerNSamples f = some s) (hc : headerNChannels f = some c)
    (hd : headerDeclaredPos f = some d)
    (hbig : f.size < d) :
    possible_event_table_pos d f.size = [] ∧
      _compute_robust_event_table_position f fmt = .error (.indexError, fseek f f.size) := by
  have hempty : possible_event_table_pos d f.size = [] := by
    rw [possible_event_table_pos_eq, if_neg (by omega)]
  refine ⟨hempty, ?_⟩
  rw [resolver_run f fmt nbl s c d hpnb hs hc hd]
  have hg : get_most_possible_sol d f.size nbl s c = none := by
    unfold get_most_possible_sol
    rw [hempty]
    rfl
  rw [hg]

theorem claim_C10_witness :
    possible_event_table_pos 4096 fileD.size = [] ∧
      _compute_robust_event_table_position fileD "auto" =
        .error (.indexError, fseek fileD fileD.size) :=
  claim_C10_declared_beyond_eof fileD "auto" [2, 4] 0 0 4096 (by decide) rfl rfl rfl
    (by decide)

/-- C1 counterexample: with `n_channels = 32768`, `n_samples = 65536`,
width 4 under the `"auto"` hint, the analytic offset is
`T = 8592393092 = 2458500 + 2 ^ 33`, the stored u32 is `2458500`, and
the file is exactly `T` bytes long — yet the resolver returns the
width-2 pair `(4297425796, 2)` (one wraparound, `2 * 32768 * 65536 =
2 ^ 32` makes the width-2 offset land exactly on an earlier candidate),
not `(T, 4)` as the claim requires. -/
theorem claim_C1_counterexample :
    headerNChannels fileB = some 32768 ∧ headerNSamples fileB = some 65536 ∧
    headerDeclaredPos fileB = some 2458500 ∧
    (8592393092 : Int) = calcEventTablePos 32768 65536 4 ∧
    (4 : Nat) ∈ [2, 4] ∧
    2458500 = 8592393092 % 4294967296 ∧
    8592393092 ≤ fileB.size ∧
    _compute_robust_event_table_position fileB "auto" =
      .ok ((32768, 65536, 4297425796, 2), false, fileB) ∧
    4297425796 ≠ 8592393092 ∧ (2 : Nat) ≠ 4 :=
  ⟨rfl, rfl, rfl, by decide, by decide, by decide, by decide, rfl, by decide, by decide⟩

/-- C1 (amended): under the claim's premises (width `w` in the
hint-restricted set, stored position equal to the analytic offset `T`
reduced modulo `2 ^ 32`, file at least `T` bytes, `n_channels` a u16
value) the resolver returns with distance zero and no warning a pair
whose offset is the analytic offset for the *returned* width, congruent
to the stored position modulo `2 ^ 32` and within the file; and the
returned pair is exactly `(T, w)` whenever the hint restricts the width
set to `[w]` alone or `w = 2`.  (For `w = 4` under `"auto"` a width-2
row at a smaller wraparound count can match exactly and is returned
instead — see the counterexample.) -/
theorem claim_C1_amended (f : FileHandle) (fmt : String) (nbl : List Nat) (s : Int)
    (c d w T : Nat)
    (hpnb : possibleNBytesFor fmt = some nbl)
    (hs : headerNSamples f = some s) (hc : headerNChannels f = some c)
    (hd : headerDeclaredPos f = some d)
    (hc16 : c < 65536) (hw : w ∈ nbl)
    (hT : (T : Int) = calcEventTablePos c s w)
    (hdecl : d = T % 4294967296) (hfs : T ≤ f.size) :
    ∃ pos nb,
      _compute_robust_event_table_position f fmt = .ok ((c, s, pos, nb), false, f) ∧
      nb ∈ nbl ∧ (pos : Int) = calcEventTablePos c s nb ∧
      pos % 4294967296 = d % 4294967296 ∧ pos ≤ f.size ∧
      ((nbl = [w] ∨ w = 2) → pos = T ∧ nb = w) := by
  obtain ⟨pos, nb, hg, hnbmem, hcalc, hmod, hle⟩ :=
    gmps_zero_exists d f.size nbl s c w T hw hT hdecl hfs
  refine ⟨pos, nb, ?_, hnbmem, hcalc, hmod, hle, ?_⟩
  · rw [resolver_run f fmt nbl s c d hpnb hs hc hd, hg]
    rfl
  · intro hcond
    have hTw : get_most_possible_sol d f.size nbl s c = some (T, w, 0) := by
      rcases hcond with hsingle | hw2
      · subst hsingle
        exact gmps_exact_singleton d f.size s c w T hT hdecl hfs
      · subst hw2
        rcases possibleNBytesFor_cases hpnb with h24 | h2 | h4
        · subst h24
          exact gmps_exact_auto2 d f.size s c T hc16 hT hdecl hfs
        · subst h2
          exact gmps_exact_singleton d f.size s c 2 T hT hdecl hfs
        · subst h4
          simp at hw
    rw [hg] at hTw
    simp only [Option.some.injEq, Prod.mk.injEq] at hTw
    exact ⟨hTw.1, hTw.2.1⟩

theorem claim_C1_witness :
    ∃ pos nb,
      _compute_robust_event_table_position fileA "auto" = .ok ((0, 0, pos, nb), false, fileA) ∧
      nb ∈ [2, 4] ∧ (pos : Int) = calcEventTablePos 0 0 nb ∧
      pos % 4294967296 = 900 % 4294967296 ∧ pos ≤ fileA.size ∧
      (([2, 4] = [2] ∨ 2 = 2) → pos = 900 ∧ nb = 2) :=
  claim_C1_amended fileA "auto" [2, 4] 0 0 900 2 900 (by decide) rfl rfl rfl (by decide)
    (by decide) (by decide) (by decide) (by decide)

/-- C2: when the stored position wrapped exactly once (`declared =
T - 2 ^ 32` for the true analytic offset `T` of some width in the
hint-restricted set, with `declared` a u32 value and `n_channels` a u16
value) and `T` fits in the file, the resolver returns exactly
`event_table_pos = T`, recovering the offset by adding `2 ^ 32`; the
distance is zero, so no warning is emitted. -/
theorem claim_C2_wrap_once (f : FileHandle) (fmt : String) (nbl : List Nat) (s : Int)
    (c d w T : Nat)
    (hpnb : possibleNBytesFor fmt = some nbl)
    (hs : headerNSamples f = some s) (hc : headerNChannels f = some c)
    (hd : headerDeclaredPos f = some d)
    (hc16 : c < 65536) (hw : w ∈ nbl)
    (hT : (T : Int) = calcEventTablePos c s w)
    (hwrap : T = d + 4294967296) (hd32 : d < 4294967296) (hfs : T ≤ f.size) :
    ∃ nb, _compute_robust_event_table_position f fmt = .ok ((c, s, T, nb), false, f) := by
  have hTw : ∃ nb, get_most_possible_sol d f.size nbl s c = some (T, nb, 0) := by
    rcases possibleNBytesFor_cases hpnb with h24 | h2 | h4
    · subst h24
      simp only [List.mem_cons, List.not_mem_nil, or_false] at hw
      rcases hw with rfl | rfl
      · exact ⟨2, gmps_exact_auto2 d f.size s c T hc16 hT (by omega) hfs⟩
      · exact ⟨4, gmps_exact_auto4_wrap d f.size s c T hc16 hT hwrap hd32 hfs⟩
    · subst h2
      simp only [List.mem_cons, List.not_mem_nil, or_false] at hw
      subst hw
      exact ⟨2, gmps_exact_singleton d f.size s c 2 T hT (by omega) hfs⟩
    · subst h4
      simp only [List.mem_cons, List.not_mem_nil, or_false] at hw
      subst hw
      exact ⟨4, gmps_exact_singleton d f.size s c 4 T hT (by omega) hfs⟩
  obtain ⟨nb, hg⟩ := hTw
  refine ⟨nb, ?_⟩
  rw [resolver_run f fmt nbl s c d hpnb hs hc hd, hg]
  rfl

theorem claim_C2_witness :
    ∃ nb,
      _compute_robust_event_table_position fileE "auto" =
        .ok ((32, 67109864, 4295034596, nb), false, fileE) :=
  claim_C2_wrap_once fileE "auto" [2, 4] 67109864 32 67300 2 4295034596 (by decide) rfl rfl
    rfl (by decide) (by decide) (by decide) (by decide) (by decide) (by decide)

/-- C5 counterexample: `_read_teeg` performs no save/restore of the
cursor — called on a handle whose cursor is at 5 it succeeds and leaves
the cursor at 9, refuting the claim that every parsing call restores
the cursor on every exit path. -/
theorem claim_C5_counterexample :
    ∃ t f', _read_teeg fileC 0 = .ok (t, f') ∧ f'.pos ≠ fileC.pos := by
  refine ⟨⟨2, 0, 0⟩, (fread (fseek fileC 0) 9).2, rfl, by decide⟩

/-- C5 (amended): the resolver (with its embedded header reads) does
restore the cursor on its successful return path; the TEEG descriptor
reader does not restore it — on success it leaves the cursor just past
the 9-byte TEEG structure, at `teeg_offset + 9`. -/
theorem claim_C5_amended :
    (∀ (f : FileHandle) (fmt : String) (res : Nat × Int × Nat × Nat) (warned : Bool)
      (f' : FileHandle),
      _compute_robust_event_table_position f fmt = .ok (res, warned, f') →
      f'.pos = f.pos) ∧
    (∀ (f : FileHandle) (teeg_offset : Nat) (t : Teeg) (f' : FileHandle),
      _read_teeg f teeg_offset = .ok (t, f') → f'.pos = teeg_offset + 9) := by
  constructor
  · intro f fmt res warned f' h
    obtain ⟨c, s, pos, nb⟩ := res
    obtain ⟨nbl, d, dist, -, -, -, -, -, -, hf⟩ := resolver_ok_inv h
    rw [hf]
  · intro f off t f' h
    simp only [_read_teeg] at h
    by_cases hlen : (fread (fseek f off) 9).1.length = 9
    · rw [if_pos hlen] at h
      simp only [Except.ok.injEq, Prod.mk.injEq] at h
      obtain ⟨-, hf'⟩ := h
      rw [← hf']
      have h9 : min 9 (f.size - off) = 9 := by
        simp [fread, fseek] at hlen
        omega
      show (fread (fseek f off) 9).2.pos = off + 9
      simp [fread, fseek, h9]
    · rw [if_neg hlen] at h
      exact Except.noConfusion h

theorem claim_C5_witness :
    fileA.pos = fileA.pos ∧ (fread (fseek fileC 0) 9).2.pos = 0 + 9 :=
  ⟨claim_C5_amended.1 fileA "auto" (0, 0, 900, 2) false fileA rfl,
    claim_C5_amended.2 fileC 0 ⟨2, 0, 0⟩ (fread (fseek fileC 0) 9).2 rfl⟩

/-- C9: for each valid event type the returned parsing closure maps the
empty buffer to the empty record sequence, and a buffer of exactly one
record length (8 bytes for type 1, 19 for types 2 and 3) to exactly one
record whose fields decode the bytes little-endian per that type's
layout (`<HBcl` resp. `<HBclhhfccc`; the `Latency` float is kept as its
32-bit pattern). -/
theorem claim_C9_record_layouts :
    _get_event_decoder 1 = .ok eventDecoder1 ∧
    _get_event_decoder 2 = .ok eventDecoder2 ∧
    _get_event_decoder 3 = .ok eventDecoder3 ∧
    eventDecoder1 [] = some [] ∧ eventDecoder2 [] = some [] ∧ eventDecoder3 [] = some [] ∧
    (∀ b0 b1 b2 b3 b4 b5 b6 b7 : Nat,
      eventDecoder1 [b0, b1, b2, b3, b4, b5, b6, b7] =
        some [CNTEvent.ev1
          ⟨b0 + 256 * b1, b2, b3, toI32 (b4 + 256 * b5 + 65536 * b6 + 16777216 * b7)⟩]) ∧
    (∀ b0 b1 b2 b3 b4 b5 b6 b7 b8 b9 b10 b11 b12 b13 b14 b15 b16 b17 b18 : Nat,
      eventDecoder2 [b0, b1, b2, b3, b4, b5, b6, b7, b8, b9, b10, b11, b12, b13, b14, b15,
          b16, b17, b18] =
        some [CNTEvent.ev2
          ⟨b0 + 256 * b1, b2, b3, toI32 (b4 + 256 * b5 + 65536 * b6 + 16777216 * b7),
            toI16 (b8 + 256 * b9), toI16 (b10 + 256 * b11),
            b12 + 256 * b13 + 65536 * b14 + 16777216 * b15, b16, b17, b18⟩]) ∧
    (∀ b0 b1 b2 b3 b4 b5 b6 b7 b8 b9 b10 b11 b12 b13 b14 b15 b16 b17 b18 : Nat,
      eventDecoder3 [b0, b1, b2, b3, b4, b5, b6, b7, b8, b9, b10, b11, b12, b13, b14, b15,
          b16, b17, b18] =
        some [CNTEvent.ev3
          ⟨b0 + 256 * b1, b2, b3, toI32 (b4 + 256 * b5 + 65536 * b6 + 16777216 * b7),
            toI16 (b8 + 256 * b9), toI16 (b10 + 256 * b11),
            b12 + 256 * b13 + 65536 * b14 + 16777216 * b15, b16, b17, b18⟩]) := by
  refine ⟨rfl, rfl, rfl, by simp [eventDecoder1, chunksOf], by simp [eventDecoder2, chunksOf],
    by simp [eventDecoder3, chunksOf], ?_, ?_, ?_⟩
  · intro b0 b1 b2 b3 b4 b5 b6 b7
    simp [eventDecoder1, chunksOf, decodeEvent1, decodeI32, leNat]
    ring_nf
  · intro b0 b1 b2 b3 b4 b5 b6 b7 b8 b9 b10 b11 b12 b13 b14 b15 b16 b17 b18
    simp [eventDecoder2, chunksOf, decodeEvent2, decodeI32, leNat]
    ring_nf
    exact ⟨trivial, trivial⟩
  · intro b0 b1 b2 b3 b4 b5 b6 b7 b8 b9 b10 b11 b12 b13 b14 b15 b16 b17 b18
    simp [eventDecoder3, chunksOf, decodeEvent3, decodeI32, leNat]
    ring_nf
    exact ⟨trivial, trivial⟩
